import Mathlib

/-!
Verification of the NLD normalization engine (`ompy/norm_nld.py`).

The Python source is shallowly embedded over the reals: numpy rows become
lists of real tuples, the transformation / constant-temperature model /
resonance-spacing converter become real-valued functions, and fallible
steps (unit check, model dispatch, division by a zero spin-weighted sum)
become `Except`-valued functions.
-/

open Real List

namespace NormNLD

/-- Error taxonomy for the fallible steps of the engine. -/
inductive Err where
  | unitError : Err
  | configurationError : Err
  | unboundLocal : Err
  | domainError : Err
  deriving DecidableEq

/-- `normalize` (norm_nld.py, two-column case): each row `(Ex, v)` becomes
`(Ex, v * A * exp(alpha * Ex))`. -/
noncomputable def normalize2 (nld : List (ℝ × ℝ)) (A alpha : ℝ) : List (ℝ × ℝ) :=
  nld.map fun p => (p.1, p.2 * A * Real.exp (alpha * p.1))

/-- `normalize` (norm_nld.py, three-column case): values are transformed as in
the two-column case and the uncertainty column is propagated through the
relative uncertainty `rel_unc = unc / value`, giving `unc' = value' * rel_unc`. -/
noncomputable def normalize3 (nld : List (ℝ × ℝ × ℝ)) (A alpha : ℝ) : List (ℝ × ℝ × ℝ) :=
  nld.map fun p =>
    (p.1, p.2.1 * A * Real.exp (alpha * p.1),
      p.2.1 * A * Real.exp (alpha * p.1) * (p.2.2 / p.2.1))

/-- `NormNLD.CT`: constant-temperature level density
`exp((Ex - Eshift) / T) / T`. -/
noncomputable def CT (Earr T Eshift : ℝ) : ℝ :=
  Real.exp ((Earr - Eshift) / T) / T

/-- `NormNLD.EshiftFromT`: `Eshift = Sn - T * log(nld(Sn) * T)` where
`nld_Sn = (Sn, nld(Sn))`. -/
noncomputable def EshiftFromT (T : ℝ) (nld_Sn : ℝ × ℝ) : ℝ :=
  nld_Sn.1 - T * Real.log (nld_Sn.2 * T)

/-- The spin-weighted channel sum `summe` of `NormNLD.nldSn_from_D0`:
`g(J + 1/2)` if the target spin is zero, else
`1/2 * (g(J - 1/2) + g(J + 1/2))`.  `g` is the externally supplied
spin-distribution function evaluated at `Ex = Sn`. -/
noncomputable def summe (J_target : ℝ) (g : ℝ → ℝ) : ℝ :=
  if J_target = 0 then g (J_target + 1 / 2)
  else 1 / 2 * (g (J_target - 1 / 2) + g (J_target + 1 / 2))

/-- `NormNLD.nldSn_from_D0`: returns `[Sn, 1 / (summe * D0 * 1e-6)]`. -/
noncomputable def nldSn_from_D0 (D0 Sn J_target : ℝ) (g : ℝ → ℝ) : ℝ × ℝ :=
  (Sn, 1 / (summe J_target g * D0 * 1e-6))

/-- `NormNLD.nldSn_from_D0`, with the failing division made explicit.
Modelled from the spec: the spin-distribution collaborator
(`ompy.spinfunctions.SpinFunctions`, not part of the analysed source) returns
a plain scalar weight, so a zero denominator in `1 / (summe * D0 * 1e-6)`
signals a DomainError (Python scalar zero-division) instead of silently
producing infinity. -/
noncomputable def nldSn_from_D0_checked (D0 Sn J_target : ℝ) (g : ℝ → ℝ) :
    Except Err (ℝ × ℝ) :=
  if summe J_target g * D0 * 1e-6 = 0 then Except.error Err.domainError
  else Except.ok (Sn, 1 / (summe J_target g * D0 * 1e-6))

/-- The unit-sanity check opening `NormNLD.__init__`: when any energy in the
input curve exceeds 1000 the constructor raises before anything else runs
(the remainder of the constructor is abstracted as `rest`). -/
noncomputable def init_unit_check {α : Type} (nld : List (ℝ × ℝ))
    (rest : Except Err α) : Except Err α :=
  if ∃ p ∈ nld, p.1 > 1000 then Except.error Err.unitError else rest

/-- `chi2_low` of `NormNLD.chi2_disc_ext` (two-column window): squared
residuals between the `(A, alpha)`-transformed low window and the smoothed
discrete levels. -/
noncomputable def chi2_low2 (A alpha : ℝ) (data_low : List (ℝ × ℝ))
    (levels_smoothed : List ℝ) : ℝ :=
  (List.zipWith (fun p r => (p.2 - r) ^ 2)
    (normalize2 data_low A alpha) levels_smoothed).sum

/-- `chi2_high` of `NormNLD.chi2_disc_ext` (two-column window): squared
residuals between the transformed high window and the extrapolation model
evaluated with `Eshift` derived from `T` and `nld(Sn)` (itself derived from
`D0` through the spin parameters). -/
noncomputable def chi2_high2 (A alpha T D0 : ℝ) (nldModel : ℝ → ℝ → ℝ → ℝ)
    (data_high : List (ℝ × ℝ)) (Sn J_target : ℝ) (g : ℝ → ℝ) : ℝ :=
  ((normalize2 data_high A alpha).map
    (fun p =>
      (p.2 - nldModel p.1 T (EshiftFromT T (nldSn_from_D0 D0 Sn J_target g))) ^ 2)).sum

/-- `NormNLD.chi2_disc_ext` (two-column data): total cost
`chi2 = chi2_low + chi2_high`. -/
noncomputable def chi2_disc_ext2 (A alpha T D0 : ℝ) (nldModel : ℝ → ℝ → ℝ → ℝ)
    (data_low data_high : List (ℝ × ℝ)) (levels_smoothed : List ℝ)
    (Sn J_target : ℝ) (g : ℝ → ℝ) : ℝ :=
  chi2_low2 A alpha data_low levels_smoothed +
    chi2_high2 A alpha T D0 nldModel data_high Sn J_target g

/-- `chi2_low` of `NormNLD.chi2_disc_ext` (three-column window): each squared
residual is weighted by the transformed uncertainty, `chi2 /= data[:,2]**2`. -/
noncomputable def chi2_low3 (A alpha : ℝ) (data_low : List (ℝ × ℝ × ℝ))
    (levels_smoothed : List ℝ) : ℝ :=
  (List.zipWith (fun p r => (p.2.1 - r) ^ 2 / p.2.2 ^ 2)
    (normalize3 data_low A alpha) levels_smoothed).sum

/-- `chi2_high` of `NormNLD.chi2_disc_ext` (three-column window),
uncertainty-weighted. -/
noncomputable def chi2_high3 (A alpha T D0 : ℝ) (nldModel : ℝ → ℝ → ℝ → ℝ)
    (data_high : List (ℝ × ℝ × ℝ)) (Sn J_target : ℝ) (g : ℝ → ℝ) : ℝ :=
  ((normalize3 data_high A alpha).map
    (fun p =>
      (p.2.1 - nldModel p.1 T (EshiftFromT T (nldSn_from_D0 D0 Sn J_target g))) ^ 2 /
        p.2.2 ^ 2)).sum

/-- `NormNLD.chi2_disc_ext` (three-column data): total cost
`chi2 = chi2_low + chi2_high`. -/
noncomputable def chi2_disc_ext3 (A alpha T D0 : ℝ) (nldModel : ℝ → ℝ → ℝ → ℝ)
    (data_low data_high : List (ℝ × ℝ × ℝ)) (levels_smoothed : List ℝ)
    (Sn J_target : ℝ) (g : ℝ → ℝ) : ℝ :=
  chi2_low3 A alpha data_low levels_smoothed +
    chi2_high3 A alpha T D0 nldModel data_high Sn J_target g

/-- The dispatch of `NormNLD.extrapolate`: for the model name "CT" the
constant-temperature values are produced over the extrapolation grid; any
other name raises (`TypeError` in the source, the configuration error of the
taxonomy). -/
noncomputable def extrapolate (model : String) (Earr : List ℝ) (T Eshift : ℝ) :
    Except Err (List (ℝ × ℝ)) :=
  if model = "CT" then Except.ok (Earr.map fun E => (E, CT E T Eshift))
  else Except.error Err.configurationError

/-- The model dispatch inside `NormNLD.find_norm`: the name "CT" binds the CT
function; for any other name the source only prints
"Other models not yet supported in this fit" and leaves the local `nldModel`
unbound — no exception is raised at the dispatch point. -/
noncomputable def find_norm_model (model : String) : Option (ℝ → ℝ → ℝ → ℝ) :=
  if model = "CT" then some CT else none

/-- The construction of `chi2_args` immediately after the dispatch in
`find_norm`: it reads `nldModel`, so an unbound model surfaces here as an
`UnboundLocalError`, not as the configuration error. -/
noncomputable def find_norm_chi2_args (model : String)
    (data_low data_high : List (ℝ × ℝ)) (levels_smoothed : List ℝ) :
    Except Err ((ℝ → ℝ → ℝ → ℝ) × List (ℝ × ℝ) × List (ℝ × ℝ) × List ℝ) :=
  match find_norm_model model with
  | some f => Except.ok (f, data_low, data_high, levels_smoothed)
  | none => Except.error Err.unboundLocal

/-- numpy mean of a list of reals. -/
noncomputable def npMean (xs : List ℝ) : ℝ :=
  xs.sum / xs.length

/-- numpy population standard deviation (`ndarray.std`, `ddof = 0`). -/
noncomputable def npStd (xs : List ℝ) : ℝ :=
  Real.sqrt (((xs.map fun x => (x - npMean xs) ^ 2).sum) / xs.length)

/-- One collected curve of `normalize_scanning_samples` under an all-zero
uncertainty column: the noisy draw `stats.norm.rvs(value, 0)` equals the mean
values, so posterior sample `s = (A, alpha)` contributes the value column of
`normalize(curve, A, alpha)`. -/
noncomputable def scanning_sample_curve (ExMeans : List (ℝ × ℝ)) (s : ℝ × ℝ) :
    List ℝ :=
  (normalize2 ExMeans s.1 s.2).map Prod.snd

/-- The per-bin reduction of `normalize_scanning_samples` (zero-uncertainty
input): standard deviation across the collected curves at energy bin `j`. -/
noncomputable def scanning_std_zero_unc (ExMeans : List (ℝ × ℝ))
    (samples : List (ℝ × ℝ)) (j : ℕ) : ℝ :=
  npStd (samples.map fun s => (scanning_sample_curve ExMeans s).getD j 0)

/-- The minimum of `|x - t|` over a list of energies
(numpy `np.abs(arr - t).min()`). -/
noncomputable def minAbsVal (t : ℝ) : List ℝ → ℝ
  | [] => 0
  | [x] => |x - t|
  | x :: y :: rest => min |x - t| (minAbsVal t (y :: rest))

/-- First index attaining the minimum of `|x - t|`
(numpy `np.abs(arr - t).argmin()`, which returns the first occurrence of the
minimum). -/
noncomputable def argminAbs (t : ℝ) : List ℝ → ℕ
  | [] => 0
  | [_] => 0
  | x :: y :: rest =>
      if |x - t| ≤ minAbsVal t (y :: rest) then 0 else argminAbs t (y :: rest) + 1

/-- Python slice `l[i:j]` for nonnegative bounds. -/
def pySlice {α : Type} (l : List α) (i j : ℕ) : List α :=
  (l.drop i).take (j - i)

/-- The window slicing of `NormNLD.find_norm`: `idE1`/`idE2` are the indices
of the energies nearest the window bounds and each window is the slice
`nld[idE1:idE2]`; the smoothed discrete levels are sliced with the low-window
indices. Returns `(data_low, levels_smoothed sliced, data_high)`. -/
noncomputable def find_norm_windows (nld : List (ℝ × ℝ)) (levels_smoothed : List ℝ)
    (E1_low E2_low E1_high E2_high : ℝ) :
    List (ℝ × ℝ) × List ℝ × List (ℝ × ℝ) :=
  let idE1 := argminAbs E1_low (nld.map Prod.fst)
  let idE2 := argminAbs E2_low (nld.map Prod.fst)
  let data_low := pySlice nld idE1 idE2
  let levels_low := pySlice levels_smoothed idE1 idE2
  let idE1h := argminAbs E1_high (nld.map Prod.fst)
  let idE2h := argminAbs E2_high (nld.map Prod.fst)
  (data_low, levels_low, pySlice nld idE1h idE2h)

/-- scipy piecewise-linear interpolation over a table of `(x, y)` points with
strictly increasing `x`: the first bracketing segment is used; queries are
only meaningful inside the table's range (`bounds_error=True` in the source
rejects the rest). -/
noncomputable def interp1d : List (ℝ × ℝ) → ℝ → ℝ
  | [], _ => 0
  | [p], _ => p.2
  | p :: q :: rest, E =>
      if E ≤ q.1 then p.2 + (q.2 - p.2) * (E - p.1) / (q.1 - p.1)
      else interp1d (q :: rest) E

/-- Modelled from the spec: `lib.log_interp1d` (ompy.library, not part of the
analysed source) is "a log-linear interpolation of the input curve" — linear
interpolation of the log-values, exponentiated. -/
noncomputable def log_interp1d (pts : List (ℝ × ℝ)) (E : ℝ) : ℝ :=
  Real.exp (interp1d (pts.map fun p => (p.1, Real.log p.2)) E)

/-- The first energy of a curve. -/
def headX : List (ℝ × ℝ) → ℝ
  | [] => 0
  | p :: _ => p.1

/-- The last energy of a curve. -/
def lastX : List (ℝ × ℝ) → ℝ
  | [] => 0
  | [p] => p.1
  | _ :: q :: rest => lastX (q :: rest)

/-- `norm_2points`: `alpha = log((nldE2 * f(E1)) / (nldE1 * f(E2))) / (E2 - E1)`
with `f` the log-linear interpolant of the input curve. -/
noncomputable def alpha_2points (pts : List (ℝ × ℝ)) (E1 nldE1 E2 nldE2 : ℝ) : ℝ :=
  Real.log ((nldE2 * log_interp1d pts E1) / (nldE1 * log_interp1d pts E2)) / (E2 - E1)

/-- `norm_2points`: `A = nldE2 / f(E2) * exp(-alpha * E2)`. -/
noncomputable def A_2points (pts : List (ℝ × ℝ)) (E1 nldE1 E2 nldE2 : ℝ) : ℝ :=
  nldE2 / log_interp1d pts E2 *
    Real.exp (-(alpha_2points pts E1 nldE1 E2 nldE2) * E2)

/-- `norm_2points`: the returned normalized curve
`nld_norm = nld * A * exp(alpha * Ex)` on the input energy grid. -/
noncomputable def norm_2points (pts : List (ℝ × ℝ)) (E1 nldE1 E2 nldE2 : ℝ) :
    List (ℝ × ℝ) :=
  normalize2 pts (A_2points pts E1 nldE1 E2 nldE2)
    (alpha_2points pts E1 nldE1 E2 nldE2)

/-- Mapping a function that fixes every element of a list is the identity. -/
theorem map_self {α : Type} (l : List α) (f : α → α) (h : ∀ x ∈ l, f x = x) :
    l.map f = l := by
  induction l with
  | nil => rfl
  | cons a t ih =>
      rw [List.map_cons, h a (List.mem_cons_self a t),
        ih fun x hx => h x (List.mem_cons_of_mem a hx)]

/-- The exponential factors of a transformation and its inverse cancel. -/
theorem exp_mul_exp_neg (alpha x : ℝ) :
    Real.exp (alpha * x) * Real.exp (-alpha * x) = 1 := by
  rw [← Real.exp_add, show alpha * x + -alpha * x = 0 by ring, Real.exp_zero]

end NormNLD

namespace NormNLD

/-- C1: `nldSn_from_D0` returns `(Sn, 1 / (summe * D0 * 1e-6))` where
`summe = g(J+1/2)` for a spin-zero target and
`summe = (g(J-1/2) + g(J+1/2)) / 2` otherwise; moreover the spin function is
consulted only at the single channel `J+1/2` when `J = 0`, and only at the two
channels `J ± 1/2` otherwise (any two spin functions agreeing there give the
same result). -/
theorem C1_nldSn_from_D0_formula (D0 Sn J_target : ℝ) (g : ℝ → ℝ) :
    (nldSn_from_D0 D0 Sn J_target g).1 = Sn ∧
    (J_target = 0 →
      (nldSn_from_D0 D0 Sn J_target g).2 =
        1 / (g (J_target + 1 / 2) * D0 * 1e-6) ∧
      ∀ g' : ℝ → ℝ, g' (J_target + 1 / 2) = g (J_target + 1 / 2) →
        nldSn_from_D0 D0 Sn J_target g' = nldSn_from_D0 D0 Sn J_target g) ∧
    (J_target ≠ 0 →
      (nldSn_from_D0 D0 Sn J_target g).2 =
        1 / ((g (J_target - 1 / 2) + g (J_target + 1 / 2)) / 2 * D0 * 1e-6) ∧
      ∀ g' : ℝ → ℝ, g' (J_target - 1 / 2) = g (J_target - 1 / 2) →
        g' (J_target + 1 / 2) = g (J_target + 1 / 2) →
        nldSn_from_D0 D0 Sn J_target g' = nldSn_from_D0 D0 Sn J_target g) := by
  refine ⟨rfl, fun h0 => ⟨?_, fun g' hg => ?_⟩, fun h0 => ⟨?_, fun g' hg1 hg2 => ?_⟩⟩
  · simp [nldSn_from_D0, summe, h0]
  · subst h0
    have hs : summe 0 g' = summe 0 g := by
      unfold summe
      rw [if_pos rfl, if_pos rfl]
      exact hg
    unfold nldSn_from_D0
    rw [hs]
  · simp only [nldSn_from_D0, summe, if_neg h0]
    congr 1
    ring
  · have hs : summe J_target g' = summe J_target g := by
      unfold summe
      rw [if_neg h0, if_neg h0, hg1, hg2]
    unfold nldSn_from_D0
    rw [hs]

/-- Witness for C1 at a concrete input. -/
theorem C1_nldSn_from_D0_formula_witness :
    (nldSn_from_D0 1 5 0 (fun _ => 1)).1 = 5 ∧
    ((0 : ℝ) = 0 →
      (nldSn_from_D0 1 5 0 (fun _ => 1)).2 =
        1 / ((fun (_ : ℝ) => (1 : ℝ)) ((0 : ℝ) + 1 / 2) * 1 * 1e-6) ∧
      ∀ g' : ℝ → ℝ, g' ((0 : ℝ) + 1 / 2) = (fun (_ : ℝ) => (1 : ℝ)) ((0 : ℝ) + 1 / 2) →
        nldSn_from_D0 1 5 0 g' = nldSn_from_D0 1 5 0 (fun _ => 1)) ∧
    ((0 : ℝ) ≠ 0 →
      (nldSn_from_D0 1 5 0 (fun _ => 1)).2 =
        1 / (((fun (_ : ℝ) => (1 : ℝ)) ((0 : ℝ) - 1 / 2) +
          (fun (_ : ℝ) => (1 : ℝ)) ((0 : ℝ) + 1 / 2)) / 2 * 1 * 1e-6) ∧
      ∀ g' : ℝ → ℝ, g' ((0 : ℝ) - 1 / 2) = (fun (_ : ℝ) => (1 : ℝ)) ((0 : ℝ) - 1 / 2) →
        g' ((0 : ℝ) + 1 / 2) = (fun (_ : ℝ) => (1 : ℝ)) ((0 : ℝ) + 1 / 2) →
        nldSn_from_D0 1 5 0 g' = nldSn_from_D0 1 5 0 (fun _ => 1)) :=
  C1_nldSn_from_D0_formula 1 5 0 (fun _ => 1)

/-- C4: the transformation round-trips — applying `normalize` with `(A, alpha)`
and then with `(1/A, -alpha)` restores the original curve, for both the
two-column variant (any `A ≠ 0`) and the three-column variant (values nonzero,
uncertainties restored as well). -/
theorem C4_normalize_round_trip (A alpha : ℝ) (hA : A ≠ 0)
    (nld2 : List (ℝ × ℝ)) (nld3 : List (ℝ × ℝ × ℝ))
    (hv : ∀ p ∈ nld3, p.2.1 ≠ 0) :
    normalize2 (normalize2 nld2 A alpha) (1 / A) (-alpha) = nld2 ∧
    normalize3 (normalize3 nld3 A alpha) (1 / A) (-alpha) = nld3 := by
  have hval : ∀ v x : ℝ,
      v * A * Real.exp (alpha * x) * (1 / A) * Real.exp (-alpha * x) = v := by
    intro v x
    have h1 : v * A * Real.exp (alpha * x) * (1 / A) * Real.exp (-alpha * x)
        = v * (A * (1 / A)) * (Real.exp (alpha * x) * Real.exp (-alpha * x)) := by
      ring
    rw [h1, exp_mul_exp_neg, mul_one_div_cancel hA, mul_one, mul_one]
  constructor
  · unfold normalize2
    rw [List.map_map]
    apply map_self
    intro p _
    simp only [Function.comp_apply]
    rw [hval p.2 p.1]
  · unfold normalize3
    rw [List.map_map]
    apply map_self
    intro p hp
    obtain ⟨x, v, u⟩ := p
    have hv0 : v ≠ 0 := hv ⟨x, v, u⟩ hp
    simp only [Function.comp_apply]
    have hvne : v * A * Real.exp (alpha * x) ≠ 0 :=
      mul_ne_zero (mul_ne_zero hv0 hA) (Real.exp_ne_zero _)
    have hrel : v * A * Real.exp (alpha * x) * (u / v) / (v * A * Real.exp (alpha * x))
        = u / v := mul_div_cancel_left₀ _ hvne
    rw [hval v x, hrel, mul_comm v (u / v), div_mul_cancel₀ u hv0]

/-- Witness for C4 at a concrete input. -/
theorem C4_normalize_round_trip_witness :
    normalize2 (normalize2 [((1 : ℝ), (2 : ℝ))] 2 3) (1 / 2) (-3) = [((1 : ℝ), (2 : ℝ))] ∧
    normalize3 (normalize3 [((1 : ℝ), (2 : ℝ), (5 : ℝ))] 2 3) (1 / 2) (-3)
      = [((1 : ℝ), (2 : ℝ), (5 : ℝ))] :=
  C4_normalize_round_trip 2 3 (by norm_num) _ _ (by norm_num)

/-- C5: for `T > 0` and an anchor `(Sn, rho)` with `rho * T > 0`, the energy
shift computed by `EshiftFromT` makes the constant-temperature model reproduce
the anchor density at `Sn`: `CT Sn T (EshiftFromT T (Sn, rho)) = rho`. -/
theorem C5_CT_EshiftFromT_inverse (T Sn rho : ℝ) (hT : 0 < T)
    (hrho : 0 < rho * T) :
    CT Sn T (EshiftFromT T (Sn, rho)) = rho := by
  have hT0 : T ≠ 0 := ne_of_gt hT
  unfold CT EshiftFromT
  have h1 : (Sn - (Sn - T * Real.log (rho * T))) / T = Real.log (rho * T) := by
    field_simp
  rw [h1, Real.exp_log hrho, mul_div_cancel_right₀ rho hT0]

/-- Witness for C5 at a concrete input. -/
theorem C5_CT_EshiftFromT_inverse_witness :
    CT 5 1 (EshiftFromT 1 (5, 2)) = 2 :=
  C5_CT_EshiftFromT_inverse 1 5 2 (by norm_num) (by norm_num)

/-- C6: the constructor's unit-sanity check — a curve with any energy above
1000 makes construction fail with the unit error no matter what the rest of
the constructor would compute (nothing else is produced), and a curve with all
energies at or below 1000 passes the check unchanged. -/
theorem C6_init_unit_check {α : Type} (nld : List (ℝ × ℝ)) (rest : Except Err α) :
    ((∃ p ∈ nld, p.1 > 1000) → init_unit_check nld rest = Except.error Err.unitError) ∧
    ((∀ p ∈ nld, p.1 ≤ 1000) → init_unit_check nld rest = rest) := by
  constructor
  · intro h
    unfold init_unit_check
    rw [if_pos h]
  · intro h
    unfold init_unit_check
    rw [if_neg]
    rintro ⟨p, hp, hgt⟩
    exact absurd hgt (not_lt.mpr (h p hp))

/-- Witness for C6 at concrete inputs: an offending curve errors out, a sane
curve passes through. -/
theorem C6_init_unit_check_witness :
    init_unit_check [((1500 : ℝ), (2 : ℝ))] (Except.ok (0 : ℕ))
      = Except.error Err.unitError ∧
    init_unit_check [((1 : ℝ), (2 : ℝ))] (Except.ok (0 : ℕ)) = Except.ok 0 :=
  ⟨(C6_init_unit_check [((1500 : ℝ), (2 : ℝ))] (Except.ok 0)).1
      ⟨(1500, 2), by simp, by norm_num⟩,
    (C6_init_unit_check [((1 : ℝ), (2 : ℝ))] (Except.ok 0)).2
      (by intro p hp; simp at hp; rw [hp]; norm_num)⟩

/-- C7: when the spin-weighted channel sum `summe` is zero, `nldSn_from_D0`
fails with a domain error instead of silently returning an infinite or NaN
density. -/
theorem C7_nldSn_from_D0_zero_summe (D0 Sn J_target : ℝ) (g : ℝ → ℝ)
    (h : summe J_target g = 0) :
    nldSn_from_D0_checked D0 Sn J_target g = Except.error Err.domainError := by
  unfold nldSn_from_D0_checked
  rw [if_pos]
  rw [h, zero_mul, zero_mul]

/-- Witness for C7 at a concrete input. -/
theorem C7_nldSn_from_D0_zero_summe_witness :
    nldSn_from_D0_checked 1 5 0 (fun _ => 0) = Except.error Err.domainError :=
  C7_nldSn_from_D0_zero_summe 1 5 0 (fun _ => 0) (by simp [summe])

/-- A zipWith of a pointwise-nonnegative function sums to a nonnegative real. -/
theorem sum_zipWith_nonneg {α β : Type} (f : α → β → ℝ)
    (h : ∀ a b, 0 ≤ f a b) :
    ∀ (l1 : List α) (l2 : List β), 0 ≤ (List.zipWith f l1 l2).sum := by
  intro l1
  induction l1 with
  | nil => intro l2; simp
  | cons a t ih =>
      intro l2
      cases l2 with
      | nil => simp
      | cons b t2 =>
          rw [List.zipWith_cons_cons, List.sum_cons]
          exact add_nonneg (h a b) (ih t2)

/-- A map of a pointwise-nonnegative function sums to a nonnegative real. -/
theorem sum_map_nonneg {α : Type} (f : α → ℝ) (h : ∀ a, 0 ≤ f a)
    (l : List α) : 0 ≤ (l.map f).sum := by
  induction l with
  | nil => simp
  | cons a t ih =>
      rw [List.map_cons, List.sum_cons]
      exact add_nonneg (h a) ih

/-- A zipWith whose function vanishes on every zipped pair sums to zero. -/
theorem sum_zipWith_zero {α β : Type} (f : α → β → ℝ) :
    ∀ (l1 : List α) (l2 : List β),
      (∀ pr ∈ List.zip l1 l2, f pr.1 pr.2 = 0) →
      (List.zipWith f l1 l2).sum = 0 := by
  intro l1
  induction l1 with
  | nil => intro l2 _; simp
  | cons a t ih =>
      intro l2 h
      cases l2 with
      | nil => simp
      | cons b t2 =>
          rw [List.zipWith_cons_cons, List.sum_cons,
            h (a, b) (by rw [List.zip_cons_cons]; exact List.mem_cons_self _ _),
            ih t2 fun pr hpr =>
              h pr (by rw [List.zip_cons_cons]; exact List.mem_cons_of_mem _ hpr),
            add_zero]

/-- A map whose function vanishes on every element sums to zero. -/
theorem sum_map_zero {α : Type} (f : α → ℝ) (l : List α)
    (h : ∀ a ∈ l, f a = 0) : (l.map f).sum = 0 := by
  induction l with
  | nil => simp
  | cons a t ih =>
      rw [List.map_cons, List.sum_cons, h a (List.mem_cons_self _ _),
        ih fun x hx => h x (List.mem_cons_of_mem _ hx), add_zero]

/-- C2: the chi-square cost `chi2_disc_ext` equals the sum of the low-window
and high-window contributions, is non-negative, and vanishes when the
transformed low window matches the smoothed levels and the transformed high
window matches the model evaluation under the given parameters — for both the
unweighted (two-column) and uncertainty-weighted (three-column) variants. -/
theorem C2_chi2_disc_ext_cost (A alpha T D0 : ℝ) (nldModel : ℝ → ℝ → ℝ → ℝ)
    (dl2 dh2 : List (ℝ × ℝ)) (dl3 dh3 : List (ℝ × ℝ × ℝ))
    (levels2 levels3 : List ℝ) (Sn J_target : ℝ) (g : ℝ → ℝ) :
    (chi2_disc_ext2 A alpha T D0 nldModel dl2 dh2 levels2 Sn J_target g =
        chi2_low2 A alpha dl2 levels2 +
          chi2_high2 A alpha T D0 nldModel dh2 Sn J_target g ∧
      0 ≤ chi2_disc_ext2 A alpha T D0 nldModel dl2 dh2 levels2 Sn J_target g ∧
      ((∀ pr ∈ List.zip (normalize2 dl2 A alpha) levels2, pr.1.2 = pr.2) →
        (∀ p ∈ normalize2 dh2 A alpha,
          p.2 = nldModel p.1 T (EshiftFromT T (nldSn_from_D0 D0 Sn J_target g))) →
        chi2_disc_ext2 A alpha T D0 nldModel dl2 dh2 levels2 Sn J_target g = 0)) ∧
    (chi2_disc_ext3 A alpha T D0 nldModel dl3 dh3 levels3 Sn J_target g =
        chi2_low3 A alpha dl3 levels3 +
          chi2_high3 A alpha T D0 nldModel dh3 Sn J_target g ∧
      0 ≤ chi2_disc_ext3 A alpha T D0 nldModel dl3 dh3 levels3 Sn J_target g ∧
      ((∀ pr ∈ List.zip (normalize3 dl3 A alpha) levels3, pr.1.2.1 = pr.2) →
        (∀ p ∈ normalize3 dh3 A alpha,
          p.2.1 = nldModel p.1 T (EshiftFromT T (nldSn_from_D0 D0 Sn J_target g))) →
        chi2_disc_ext3 A alpha T D0 nldModel dl3 dh3 levels3 Sn J_target g = 0)) := by
  refine ⟨⟨rfl, ?_, ?_⟩, rfl, ?_, ?_⟩
  · exact add_nonneg
      (sum_zipWith_nonneg _ (fun a b => sq_nonneg _) _ _)
      (sum_map_nonneg _ (fun a => sq_nonneg _) _)
  · intro hlow hhigh
    unfold chi2_disc_ext2 chi2_low2 chi2_high2
    rw [sum_zipWith_zero _ _ _ fun pr hpr => by rw [hlow pr hpr, sub_self]; ring,
      sum_map_zero _ _ fun p hp => by rw [hhigh p hp, sub_self]; ring, add_zero]
  · exact add_nonneg
      (sum_zipWith_nonneg _ (fun a b => div_nonneg (sq_nonneg _) (sq_nonneg _)) _ _)
      (sum_map_nonneg _ (fun a => div_nonneg (sq_nonneg _) (sq_nonneg _)) _)
  · intro hlow hhigh
    unfold chi2_disc_ext3 chi2_low3 chi2_high3
    rw [sum_zipWith_zero _ _ _ fun pr hpr => by
        rw [hlow pr hpr, sub_self]; rw [zero_pow two_ne_zero, zero_div],
      sum_map_zero _ _ fun p hp => by
        rw [hhigh p hp, sub_self]; rw [zero_pow two_ne_zero, zero_div],
      add_zero]

/-- Witness for C2 at a concrete input (the non-negativity conjuncts). -/
theorem C2_chi2_disc_ext_cost_witness :
    0 ≤ chi2_disc_ext2 1 0 1 1 (fun _ _ _ => 0) [] [] [] 0 0 (fun _ => 1) ∧
    0 ≤ chi2_disc_ext3 1 0 1 1 (fun _ _ _ => 0) [] [] [] 0 0 (fun _ => 1) :=
  ⟨(C2_chi2_disc_ext_cost 1 0 1 1 (fun _ _ _ => 0) [] [] [] [] [] [] 0 0
      (fun _ => 1)).1.2.1,
    (C2_chi2_disc_ext_cost 1 0 1 1 (fun _ _ _ => 0) [] [] [] [] [] [] 0 0
      (fun _ => 1)).2.2.1⟩

/-- C8 counterexample: for the model name "SM" the dispatch inside
`find_norm` produces no error at all (the source merely prints and leaves the
model unbound), so the engine does not fail with a configuration error at that
dispatch point — the failure surfaces later, as an unbound-local error when
`chi2_args` is built. -/
theorem C8_find_norm_dispatch_counterexample :
    find_norm_model "SM" = none ∧
    find_norm_chi2_args "SM" [] [] [] = Except.error Err.unboundLocal ∧
    Err.unboundLocal ≠ Err.configurationError :=
  ⟨rfl, rfl, by decide⟩

/-- C8 (amended): for every model name other than "CT", `extrapolate` fails
with the fatal configuration error; the dispatch inside `find_norm` raises
nothing at the dispatch point and leaves the model unbound, so the automatic
strategy fails only when the model is first used, with an unbound-local
error. -/
theorem C8_model_dispatch (model : String) (h : model ≠ "CT")
    (Earr : List ℝ) (T Eshift : ℝ) (data_low data_high : List (ℝ × ℝ))
    (levels_smoothed : List ℝ) :
    extrapolate model Earr T Eshift = Except.error Err.configurationError ∧
    find_norm_model model = none ∧
    find_norm_chi2_args model data_low data_high levels_smoothed =
      Except.error Err.unboundLocal := by
  have h1 : find_norm_model model = none := by
    unfold find_norm_model
    rw [if_neg h]
  refine ⟨?_, h1, ?_⟩
  · unfold extrapolate
    rw [if_neg h]
  · unfold find_norm_chi2_args
    rw [h1]

/-- Witness for C8 (amended) at a concrete input. -/
theorem C8_model_dispatch_witness :
    extrapolate "BSFG" [] 1 0 = Except.error Err.configurationError ∧
    find_norm_model "BSFG" = none ∧
    find_norm_chi2_args "BSFG" [] [] [] = Except.error Err.unboundLocal :=
  C8_model_dispatch "BSFG" (by decide) [] 1 0 [] [] []

/-- A list whose elements are all `c` sums to `c` times its length. -/
theorem sum_of_const {c : ℝ} :
    ∀ xs : List ℝ, (∀ x ∈ xs, x = c) → xs.sum = c * xs.length := by
  intro xs
  induction xs with
  | nil => intro _; simp
  | cons a t ih =>
      intro h
      rw [List.sum_cons, h a (List.mem_cons_self _ _),
        ih fun x hx => h x (List.mem_cons_of_mem _ hx)]
      push_cast [List.length_cons]
      ring

/-- The numpy standard deviation of a constant list is zero. -/
theorem npStd_of_const (xs : List ℝ) (c : ℝ) (h : ∀ x ∈ xs, x = c) :
    npStd xs = 0 := by
  cases xs with
  | nil => simp [npStd]
  | cons a t =>
      have hlen : ((a :: t).length : ℝ) ≠ 0 :=
        Nat.cast_ne_zero.mpr (by simp)
      have hmean : npMean (a :: t) = c := by
        unfold npMean
        rw [sum_of_const (a :: t) h, mul_div_assoc, div_self hlen, mul_one]
      unfold npStd
      rw [sum_map_zero _ _ fun x hx => by rw [hmean, h x hx, sub_self]; ring,
        zero_div, Real.sqrt_zero]

/-- C9 counterexample: an input curve with an all-zero uncertainty column and
the posterior sample set `{(A, alpha)} = {(1, 0), (3, 0)}` yields a propagated
per-bin standard deviation of 1, not zero — the spread of the transformation
parameters alone already shows up in the reduction. -/
theorem C9_scanning_std_counterexample :
    scanning_std_zero_unc [((0 : ℝ), (1 : ℝ))] [(1, 0), (3, 0)] 0 = 1 ∧
    scanning_std_zero_unc [((0 : ℝ), (1 : ℝ))] [(1, 0), (3, 0)] 0 ≠ 0 := by
  have h1 : scanning_std_zero_unc [((0 : ℝ), (1 : ℝ))] [(1, 0), (3, 0)] 0 = 1 := by
    unfold scanning_std_zero_unc scanning_sample_curve normalize2 npStd npMean
    norm_num [Real.exp_zero]
  exact ⟨h1, by rw [h1]; norm_num⟩

/-- C9 (amended): with an all-zero uncertainty column, the propagated per-bin
standard deviation is zero whenever the used posterior samples all carry the
same `(A, alpha)`; a spread in the sampled parameters is otherwise reflected
in the reduction. -/
theorem C9_scanning_std_zero_unc (ExMeans : List (ℝ × ℝ))
    (samples : List (ℝ × ℝ)) (s0 : ℝ × ℝ) (h : ∀ s ∈ samples, s = s0) (j : ℕ) :
    scanning_std_zero_unc ExMeans samples j = 0 := by
  unfold scanning_std_zero_unc
  apply npStd_of_const _ ((scanning_sample_curve ExMeans s0).getD j 0)
  intro y hy
  obtain ⟨s, hs, rfl⟩ := List.mem_map.mp hy
  rw [h s hs]

/-- Witness for C9 (amended) at a concrete input. -/
theorem C9_scanning_std_zero_unc_witness :
    scanning_std_zero_unc [((0 : ℝ), (1 : ℝ))] [(2, 0), (2, 0)] 0 = 0 :=
  C9_scanning_std_zero_unc [((0 : ℝ), (1 : ℝ))] [(2, 0), (2, 0)] (2, 0)
    (by
      intro s hs
      rcases List.mem_cons.mp hs with h2 | h2
      · exact h2
      · exact List.eq_of_mem_singleton h2)
    0

/-- A Python slice holds exactly the entries with index `i ≤ idx < j`. -/
theorem pySlice_getElem {α : Type} (l : List α) (i j k : ℕ) :
    (pySlice l i j)[k]? = if i + k < j then l[i + k]? else none := by
  unfold pySlice
  rw [List.getElem?_take, List.getElem?_drop]
  by_cases h : i + k < j
  · rw [if_pos (by omega), if_pos h]
  · rw [if_neg (by omega), if_neg h]

/-- `argminAbs` returns an index of the list. -/
theorem argminAbs_lt_length (t : ℝ) :
    ∀ xs : List ℝ, xs ≠ [] → argminAbs t xs < xs.length := by
  intro xs
  induction xs with
  | nil => intro h; exact absurd rfl h
  | cons x tail ih =>
      intro _
      cases tail with
      | nil => simp [argminAbs]
      | cons y rest =>
          by_cases h : |x - t| ≤ minAbsVal t (y :: rest)
          · simp [argminAbs, h]
          · have hlt := ih (by simp)
            simp only [argminAbs, if_neg h, List.length_cons]
            simp only [List.length_cons] at hlt
            omega

/-- `minAbsVal` bounds every pointwise distance. -/
theorem minAbsVal_le (t : ℝ) :
    ∀ (xs : List ℝ) (m : ℕ), m < xs.length → minAbsVal t xs ≤ |xs.getD m 0 - t| := by
  intro xs
  induction xs with
  | nil => intro m hm; simp at hm
  | cons x tail ih =>
      intro m hm
      cases tail with
      | nil =>
          cases m with
          | zero => simp [minAbsVal]
          | succ n => simp at hm
      | cons y rest =>
          cases m with
          | zero => simp [minAbsVal]
          | succ n =>
              have hn : n < (y :: rest).length := by
                simpa using Nat.lt_of_succ_lt_succ hm
              have h2 : minAbsVal t (x :: y :: rest) ≤ minAbsVal t (y :: rest) := by
                simp [minAbsVal]
              exact le_trans h2 (ih n hn)

/-- The distance at the `argminAbs` index is the minimum distance. -/
theorem getD_argminAbs (t : ℝ) :
    ∀ xs : List ℝ, xs ≠ [] →
      |xs.getD (argminAbs t xs) 0 - t| = minAbsVal t xs := by
  intro xs
  induction xs with
  | nil => intro h; exact absurd rfl h
  | cons x tail ih =>
      intro _
      cases tail with
      | nil => simp [argminAbs, minAbsVal]
      | cons y rest =>
          by_cases h : |x - t| ≤ minAbsVal t (y :: rest)
          · simp only [argminAbs, if_pos h, minAbsVal, List.getD_cons_zero]
            exact (min_eq_left h).symm
          · simp only [argminAbs, if_neg h, minAbsVal, List.getD_cons_succ]
            rw [ih (by simp)]
            exact (min_eq_right (le_of_lt (lt_of_not_le h))).symm

/-- C10: in the automatic strategy each fit window is the half-open Python
slice `nld[idE1:idE2]` between the indices of the energies nearest the window
bounds: the slice holds exactly the rows with index `idE1 ≤ idx < idE2` (so
the row nearest the upper bound is excluded and the window is empty when the
two indices coincide), the smoothed levels are sliced with the same low-window
indices, and the `idE` indices are nearest-distance indices of the energy
column. -/
theorem C10_find_norm_half_open_windows (nld : List (ℝ × ℝ))
    (levels_smoothed : List ℝ) (E1_low E2_low E1_high E2_high : ℝ) :
    (find_norm_windows nld levels_smoothed E1_low E2_low E1_high E2_high).1 =
      pySlice nld (argminAbs E1_low (nld.map Prod.fst))
        (argminAbs E2_low (nld.map Prod.fst)) ∧
    (find_norm_windows nld levels_smoothed E1_low E2_low E1_high E2_high).2.1 =
      pySlice levels_smoothed (argminAbs E1_low (nld.map Prod.fst))
        (argminAbs E2_low (nld.map Prod.fst)) ∧
    (find_norm_windows nld levels_smoothed E1_low E2_low E1_high E2_high).2.2 =
      pySlice nld (argminAbs E1_high (nld.map Prod.fst))
        (argminAbs E2_high (nld.map Prod.fst)) ∧
    (∀ i j k : ℕ, (pySlice nld i j)[k]? = if i + k < j then nld[i + k]? else none) ∧
    (∀ i j k : ℕ,
      (pySlice levels_smoothed i j)[k]? =
        if i + k < j then levels_smoothed[i + k]? else none) ∧
    (∀ i : ℕ, pySlice nld i i = []) ∧
    (nld ≠ [] →
      argminAbs E1_low (nld.map Prod.fst) < nld.length ∧
      ∀ m < nld.length,
        |(nld.map Prod.fst).getD (argminAbs E1_low (nld.map Prod.fst)) 0 - E1_low| ≤
          |(nld.map Prod.fst).getD m 0 - E1_low|) := by
  refine ⟨rfl, rfl, rfl, fun i j k => pySlice_getElem nld i j k,
    fun i j k => pySlice_getElem levels_smoothed i j k,
    fun i => by simp [pySlice, Nat.sub_self], fun hne => ⟨?_, fun m hm => ?_⟩⟩
  · have hmapne : nld.map Prod.fst ≠ [] := fun h2 =>
      hne (List.map_eq_nil_iff.mp h2)
    have h := argminAbs_lt_length E1_low (nld.map Prod.fst) hmapne
    simpa using h
  · have hmapne : nld.map Prod.fst ≠ [] := fun h2 =>
      hne (List.map_eq_nil_iff.mp h2)
    rw [getD_argminAbs E1_low (nld.map Prod.fst) hmapne]
    exact minAbsVal_le E1_low (nld.map Prod.fst) m (by simpa using hm)

/-- Witness for C10 at a concrete input: the low window of a concrete curve
with coinciding window bounds, shown empty through the theorem. -/
theorem C10_find_norm_half_open_windows_witness :
    pySlice ([((0 : ℝ), (1 : ℝ)), ((10 : ℝ), (2 : ℝ))]) 1 1 = [] :=
  (C10_find_norm_half_open_windows [((0 : ℝ), (1 : ℝ)), ((10 : ℝ), (2 : ℝ))]
    [] 1 1 1 1).2.2.2.2.2.1 1

/-- Linear interpolation is exact on affine shifts: adding `c + d * x` to the
tabulated values adds `c + d * E` to the interpolated value, for queries not
beyond the last grid point of a strictly increasing table. -/
theorem interp1d_affine_shift (F : ℝ × ℝ → ℝ) (c d : ℝ) :
    ∀ (pts : List (ℝ × ℝ)) (E : ℝ), 2 ≤ pts.length →
      List.Chain' (fun p q : ℝ × ℝ => p.1 < q.1) pts →
      E ≤ lastX pts →
      interp1d (pts.map fun p => (p.1, F p + (c + d * p.1))) E =
        interp1d (pts.map fun p => (p.1, F p)) E + (c + d * E) := by
  intro pts
  induction pts with
  | nil => intro E hlen _ _; simp at hlen
  | cons p0 tail ih =>
      intro E hlen hchain hE
      cases tail with
      | nil => simp at hlen
      | cons p1 rest =>
          have hlt : p0.1 < p1.1 := (List.chain'_cons.mp hchain).1
          by_cases hE1 : E ≤ p1.1
          · have hne : p1.1 - p0.1 ≠ 0 := sub_ne_zero.mpr (ne_of_gt hlt)
            simp only [List.map_cons, interp1d]
            rw [if_pos hE1, if_pos hE1]
            field_simp
            ring
          · cases rest with
            | nil => exact absurd hE hE1
            | cons p2 rr =>
                have e1 :
                    interp1d ((p0 :: p1 :: p2 :: rr).map fun p =>
                      (p.1, F p + (c + d * p.1))) E =
                    interp1d ((p1 :: p2 :: rr).map fun p =>
                      (p.1, F p + (c + d * p.1))) E := by
                  simp only [List.map_cons, interp1d]
                  rw [if_neg hE1]
                have e2 :
                    interp1d ((p0 :: p1 :: p2 :: rr).map fun p => (p.1, F p)) E =
                    interp1d ((p1 :: p2 :: rr).map fun p => (p.1, F p)) E := by
                  simp only [List.map_cons, interp1d]
                  rw [if_neg hE1]
                rw [e1, e2]
                exact ih E (by simp) (List.chain'_cons.mp hchain).2 hE

/-- Taking logs of a transformed curve shifts the tabulated log-values by the
affine quantity `log A + alpha * Ex`. -/
theorem map_log_normalize2 (pts : List (ℝ × ℝ)) (A alpha : ℝ) (hA : 0 < A)
    (hpos : ∀ p ∈ pts, 0 < p.2) :
    (normalize2 pts A alpha).map (fun p => (p.1, Real.log p.2)) =
      pts.map fun p => (p.1, Real.log p.2 + (Real.log A + alpha * p.1)) := by
  unfold normalize2
  rw [List.map_map]
  apply List.map_congr_left
  intro p hp
  have hp2 : p.2 ≠ 0 := ne_of_gt (hpos p hp)
  have hA0 : A ≠ 0 := ne_of_gt hA
  simp only [Function.comp_apply]
  rw [Real.log_mul (mul_ne_zero hp2 hA0) (Real.exp_ne_zero _),
    Real.log_mul hp2 hA0, Real.log_exp]
  ring_nf

/-- Evaluating the log-linear interpolant of a transformed curve: the
transformation commutes with log-interpolation inside the grid. -/
theorem log_interp1d_normalize2 (pts : List (ℝ × ℝ)) (A alpha E : ℝ)
    (hA : 0 < A) (hpos : ∀ p ∈ pts, 0 < p.2) (hlen : 2 ≤ pts.length)
    (hchain : List.Chain' (fun p q : ℝ × ℝ => p.1 < q.1) pts)
    (hE : E ≤ lastX pts) :
    log_interp1d (normalize2 pts A alpha) E =
      log_interp1d pts E * A * Real.exp (alpha * E) := by
  unfold log_interp1d
  rw [map_log_normalize2 pts A alpha hA hpos,
    interp1d_affine_shift (fun p => Real.log p.2) (Real.log A) alpha pts E
      hlen hchain hE,
    Real.exp_add, Real.exp_add, Real.exp_log hA]
  ring

/-- C3: the two-point solve computes
`alpha = log((nldE2 * f(E1)) / (nldE1 * f(E2))) / (E2 - E1)` and
`A = nldE2 / f(E2) * exp(-alpha * E2)` with `f` the log-linear interpolant,
and the resulting normalized curve, evaluated by log-interpolation at the two
anchors, reproduces the anchor values exactly. -/
theorem C3_norm_2points_anchors (pts : List (ℝ × ℝ)) (E1 nldE1 E2 nldE2 : ℝ)
    (hlen : 2 ≤ pts.length)
    (hchain : List.Chain' (fun p q : ℝ × ℝ => p.1 < q.1) pts)
    (hpos : ∀ p ∈ pts, 0 < p.2)
    (hv1 : 0 < nldE1) (hv2 : 0 < nldE2) (hne : E1 ≠ E2)
    (_hE1a : headX pts ≤ E1) (hE1b : E1 ≤ lastX pts)
    (_hE2a : headX pts ≤ E2) (hE2b : E2 ≤ lastX pts) :
    log_interp1d (norm_2points pts E1 nldE1 E2 nldE2) E1 = nldE1 ∧
    log_interp1d (norm_2points pts E1 nldE1 E2 nldE2) E2 = nldE2 := by
  have hf1 : 0 < log_interp1d pts E1 := Real.exp_pos _
  have hf2 : 0 < log_interp1d pts E2 := Real.exp_pos _
  have hr : 0 < (nldE2 * log_interp1d pts E1) / (nldE1 * log_interp1d pts E2) :=
    div_pos (mul_pos hv2 hf1) (mul_pos hv1 hf2)
  have hA : 0 < A_2points pts E1 nldE1 E2 nldE2 :=
    mul_pos (div_pos hv2 hf2) (Real.exp_pos _)
  have hEdiff : E2 - E1 ≠ 0 := sub_ne_zero.mpr (Ne.symm hne)
  have heval : ∀ E : ℝ, E ≤ lastX pts →
      log_interp1d (norm_2points pts E1 nldE1 E2 nldE2) E =
        log_interp1d pts E * A_2points pts E1 nldE1 E2 nldE2 *
          Real.exp (alpha_2points pts E1 nldE1 E2 nldE2 * E) := fun E hE =>
    log_interp1d_normalize2 pts _ _ E hA hpos hlen hchain hE
  have hdiff : alpha_2points pts E1 nldE1 E2 nldE2 * (E1 - E2) =
      -Real.log ((nldE2 * log_interp1d pts E1) / (nldE1 * log_interp1d pts E2)) := by
    unfold alpha_2points
    field_simp
    ring
  constructor
  · rw [heval E1 hE1b]
    unfold A_2points
    have hsplit : Real.exp (alpha_2points pts E1 nldE1 E2 nldE2 * E1) =
        Real.exp (alpha_2points pts E1 nldE1 E2 nldE2 * (E1 - E2)) *
          Real.exp (alpha_2points pts E1 nldE1 E2 nldE2 * E2) := by
      rw [← Real.exp_add]
      ring_nf
    rw [hsplit, hdiff, Real.exp_neg, Real.exp_log hr]
    have h1 : log_interp1d pts E1 *
        (nldE2 / log_interp1d pts E2 *
          Real.exp (-(alpha_2points pts E1 nldE1 E2 nldE2) * E2)) *
        (((nldE2 * log_interp1d pts E1) / (nldE1 * log_interp1d pts E2))⁻¹ *
          Real.exp (alpha_2points pts E1 nldE1 E2 nldE2 * E2)) =
        log_interp1d pts E1 * (nldE2 / log_interp1d pts E2) *
          ((nldE1 * log_interp1d pts E2) / (nldE2 * log_interp1d pts E1)) *
          (Real.exp (alpha_2points pts E1 nldE1 E2 nldE2 * E2) *
            Real.exp (-(alpha_2points pts E1 nldE1 E2 nldE2) * E2)) := by
      rw [inv_div]
      ring
    rw [h1, exp_mul_exp_neg, mul_one]
    field_simp
    ring
  · rw [heval E2 hE2b]
    unfold A_2points
    have h2 : log_interp1d pts E2 *
        (nldE2 / log_interp1d pts E2 *
          Real.exp (-(alpha_2points pts E1 nldE1 E2 nldE2) * E2)) *
        Real.exp (alpha_2points pts E1 nldE1 E2 nldE2 * E2) =
        (log_interp1d pts E2 / log_interp1d pts E2) * nldE2 *
          (Real.exp (alpha_2points pts E1 nldE1 E2 nldE2 * E2) *
            Real.exp (-(alpha_2points pts E1 nldE1 E2 nldE2) * E2)) := by
      ring
    rw [h2, exp_mul_exp_neg, div_self (ne_of_gt hf2), one_mul, mul_one]

/-- Witness for C3 at a concrete input. -/
theorem C3_norm_2points_anchors_witness :
    log_interp1d (norm_2points [((0 : ℝ), (1 : ℝ)), ((2 : ℝ), (1 : ℝ))] 0 1 2 3) 0
      = 1 ∧
    log_interp1d (norm_2points [((0 : ℝ), (1 : ℝ)), ((2 : ℝ), (1 : ℝ))] 0 1 2 3) 2
      = 3 :=
  C3_norm_2points_anchors [((0 : ℝ), (1 : ℝ)), ((2 : ℝ), (1 : ℝ))] 0 1 2 3
    (by norm_num)
    (by
      refine List.chain'_cons.mpr ⟨by norm_num, ?_⟩
      exact List.chain'_singleton _)
    (by
      intro p hp
      rcases List.mem_cons.mp hp with h2 | h2
      · rw [h2]; norm_num
      · rw [List.eq_of_mem_singleton h2]; norm_num)
    (by norm_num) (by norm_num) (by norm_num)
    (by norm_num [headX]) (by norm_num [lastX])
    (by norm_num [headX]) (by norm_num [lastX])

end NormNLD
